import Mathlib

/-!
Verification of the stats-utility-app specification against its sources.

The repository contains the React frontend (`apps/frontend/src/lib/api.ts`),
the Node/Express backend (in-memory job store and analyze/plot proxy routes),
and documentation of a Rust statistics microservice whose source is not part
of the repository.  Frontend and backend behaviour is embedded directly from
the TypeScript sources; the statistics kernels are modelled from the
specification text, as noted on each definition.

Numeric values are embedded as exact rationals (`ℚ`).  IEEE-754 overflow of
JavaScript's `Number` is modelled explicitly where the code's behaviour
depends on it (classification of non-finite parses).
-/

namespace StatsApp

/-- Classification of a JavaScript `Number(string)` conversion result:
either a finite double (embedded as the exact rational value of the literal),
an infinity (literal `Infinity` or overflow past the IEEE-754 double range),
or `NaN` for non-numeric text. -/
inductive JsNum where
  | nan : JsNum
  | posInf : JsNum
  | negInf : JsNum
  | finite : ℚ → JsNum
deriving DecidableEq

/-- Value of a list of decimal digit characters. -/
def natOfDigits (ds : List Char) : ℕ :=
  ds.foldl (fun a c => 10 * a + (c.toNat - 48)) 0

/-- Value of a digit list in base `b` under digit valuation `v`. -/
def natOfRadix (b : ℕ) (v : Char → ℕ) (ds : List Char) : ℕ :=
  ds.foldl (fun a c => b * a + v c) 0

def isHexDigit (c : Char) : Bool :=
  c.isDigit || ('a' ≤ c && c ≤ 'f') || ('A' ≤ c && c ≤ 'F')

def hexDigitVal (c : Char) : ℕ :=
  if c.isDigit then c.toNat - 48
  else if 'a' ≤ c && c ≤ 'f' then c.toNat - 87
  else c.toNat - 55

def isOctDigit (c : Char) : Bool := '0' ≤ c && c ≤ '7'

def isBinDigit (c : Char) : Bool := c == '0' || c == '1'

/-- Decimal mantissa of a JS numeric literal: digits with an optional single
decimal point, at least one digit in total. -/
def parseMantissa (cs : List Char) : Option ℚ :=
  match cs.splitOn '.' with
  | [ip] =>
      if !ip.isEmpty && ip.all Char.isDigit then some (natOfDigits ip : ℚ) else none
  | [ip, fp] =>
      if !(ip ++ fp).isEmpty && (ip ++ fp).all Char.isDigit then
        some ((natOfDigits ip : ℚ) + (natOfDigits fp : ℚ) / (10 : ℚ) ^ fp.length)
      else none
  | _ => none

/-- Exponent part of a JS numeric literal: optional sign then digits. -/
def parseExp (cs : List Char) : Option ℤ :=
  match cs with
  | '+' :: ds =>
      if !ds.isEmpty && ds.all Char.isDigit then some (natOfDigits ds : ℤ) else none
  | '-' :: ds =>
      if !ds.isEmpty && ds.all Char.isDigit then some (-(natOfDigits ds : ℤ)) else none
  | ds =>
      if !ds.isEmpty && ds.all Char.isDigit then some (natOfDigits ds : ℤ) else none

/-- Decimal literal body: mantissa with optional `e`/`E` exponent. -/
def parseDecimalBody (cs : List Char) : Option ℚ :=
  let m := cs.takeWhile (fun c => !(c == 'e' || c == 'E'))
  match cs.dropWhile (fun c => !(c == 'e' || c == 'E')) with
  | [] => parseMantissa m
  | _ :: ex =>
      match parseMantissa m, parseExp ex with
      | some q, some e => some (q * (10 : ℚ) ^ e)
      | _, _ => none

/-- Radix-prefixed (hex/octal/binary) JS numeric literal body. -/
def parseRadixBody (cs : List Char) : Option ℚ :=
  match cs with
  | '0' :: 'x' :: ds =>
      if !ds.isEmpty && ds.all isHexDigit then some (natOfRadix 16 hexDigitVal ds : ℕ) else none
  | '0' :: 'X' :: ds =>
      if !ds.isEmpty && ds.all isHexDigit then some (natOfRadix 16 hexDigitVal ds : ℕ) else none
  | '0' :: 'o' :: ds =>
      if !ds.isEmpty && ds.all isOctDigit then some (natOfRadix 8 (fun c => c.toNat - 48) ds : ℕ) else none
  | '0' :: 'O' :: ds =>
      if !ds.isEmpty && ds.all isOctDigit then some (natOfRadix 8 (fun c => c.toNat - 48) ds : ℕ) else none
  | '0' :: 'b' :: ds =>
      if !ds.isEmpty && ds.all isBinDigit then some (natOfRadix 2 (fun c => c.toNat - 48) ds : ℕ) else none
  | '0' :: 'B' :: ds =>
      if !ds.isEmpty && ds.all isBinDigit then some (natOfRadix 2 (fun c => c.toNat - 48) ds : ℕ) else none
  | _ => none

/-- Smallest magnitude that rounds to `Infinity` in IEEE-754 binary64
(round-to-nearest-even): `2^1024 − 2^970`. -/
def dblOverflow : ℚ := 2 ^ (1024 : ℕ) - 2 ^ (970 : ℕ)

/-- Overflow classification of an exact literal value into a JS double. -/
def classifyFinite (q : ℚ) : JsNum :=
  if dblOverflow ≤ q then .posInf else if q ≤ -dblOverflow then .negInf else .finite q

/-- JavaScript `Number(string)` semantics (StringNumericLiteral): leading and
trailing whitespace stripped; the empty string is `0`; radix-prefixed
literals are unsigned; decimal literals take an optional sign, and the
literal `Infinity` with optional sign denotes an infinity; anything else is
`NaN`.  Values beyond the double range classify as infinities. -/
def jsNumber (s : String) : JsNum :=
  match (s.trim).toList with
  | [] => .finite 0
  | cs =>
      match parseRadixBody cs with
      | some q => classifyFinite q
      | none =>
          let sb : ℚ × List Char :=
            match cs with
            | '+' :: r => (1, r)
            | '-' :: r => (-1, r)
            | r => (1, r)
          if sb.2 = "Infinity".toList then
            (if sb.1 = 1 then JsNum.posInf else JsNum.negInf)
          else
            match parseDecimalBody sb.2 with
            | some q => classifyFinite (sb.1 * q)
            | none => .nan

/-- The finite payload of a `JsNum`, mirroring `Number.isFinite` filtering. -/
def JsNum.toFinite : JsNum → Option ℚ
  | .finite q => some q
  | _ => none

/-- `true` exactly when the conversion produced a finite double. -/
def JsNum.finiteB : JsNum → Bool
  | .finite _ => true
  | _ => false

/-- From `api.ts` `csvToNumbers`: the cell list
`csv.split(/[\n,]/g).map(s => s.trim()).filter(Boolean)`. -/
def jsCells (csv : String) : List String :=
  ((csv.split (fun c => c == '\n' || c == ',')).map String.trim).filter
    (fun s => !s.isEmpty)

/-- From `api.ts`:
`csvToNumbers = cells.map(Number).filter(x => Number.isFinite(x))`,
with the keep-only-finite filter expressed as `filterMap` of the finite
payload. -/
def csvToNumbers (csv : String) : List ℚ :=
  ((jsCells csv).map jsNumber).filterMap JsNum.toFinite

lemma JsNum.toFinite_eq_some {y : JsNum} {x : ℚ} :
    y.toFinite = some x ↔ y = .finite x := by
  cases y <;> simp [JsNum.toFinite]

lemma length_filterMap_toFinite (l : List String) :
    ((l.map jsNumber).filterMap JsNum.toFinite).length =
      (l.filter (fun c => (jsNumber c).finiteB)).length := by
  induction l with
  | nil => rfl
  | cons a l ih =>
      rw [List.map_cons, List.filterMap_cons, List.filter_cons]
      cases h : jsNumber a <;>
        simp [JsNum.toFinite, JsNum.finiteB, ih, -List.filterMap_map]

/-- C1: every number produced by `csvToNumbers` comes from a cell whose
JavaScript `Number` conversion is a finite double, and exactly the cells
converting to a finite double contribute an element: cells converting to
`NaN` or `±Infinity` (non-numeric, overflow) are silently dropped, so no
element of the result is non-finite. -/
theorem csvToNumbers_only_finite (csv : String) :
    (∀ x ∈ csvToNumbers csv, ∃ c ∈ jsCells csv, jsNumber c = JsNum.finite x) ∧
    (csvToNumbers csv).length =
      ((jsCells csv).filter (fun c => (jsNumber c).finiteB)).length := by
  constructor
  · intro x hx
    simp only [csvToNumbers, List.mem_filterMap, List.mem_map] at hx
    obtain ⟨y, ⟨c, hc, hyc⟩, hfin⟩ := hx
    exact ⟨c, hc, by rw [hyc]; exact JsNum.toFinite_eq_some.mp hfin⟩
  · exact length_filterMap_toFinite (jsCells csv)

/-!
## The statistics engine

The Rust microservice `stats_rs` holding the numeric kernels is not part of
the repository (only its documentation and its HTTP callers are), so the
kernels below are modelled from the specification, over exact rationals.
-/

/-- Modelled from the spec (§7): the engine's value-level failure kinds for
the missing `stats_rs` kernels. -/
inductive EngineError where
  | invalidInput : EngineError
  | invalidParameters : EngineError
  | insufficientSample : EngineError
  | divisionByZero : EngineError
deriving DecidableEq

/-- Sorting a copy of the sample (ascending), as the spec's quantile
computation requires. -/
def sortQ (xs : List ℚ) : List ℚ := List.insertionSort (· ≤ ·) xs

/-- Indexing with default 0 (indices used are always in range). -/
def nth (l : List ℚ) (i : ℕ) : ℚ := l.getD i 0

/-- Modelled from the spec (§4.3): type-7 linear-interpolation quantile at
probability `p` of the sorted list `ys`: position `h = (n−1)·p`,
interpolating between the values at `⌊h⌋` and `⌊h⌋+1`. -/
def quantile7 (ys : List ℚ) (p : ℚ) : ℚ :=
  let h : ℚ := ((ys.length : ℚ) - 1) * p
  let j : ℕ := ⌊h⌋.toNat
  nth ys j + (h - (j : ℚ)) * (nth ys (j + 1) - nth ys j)

/-- Accumulator of the Welford single-pass mean/variance recurrence. -/
structure Moments where
  n : ℕ
  mean : ℚ
  m2 : ℚ
deriving DecidableEq

/-- One Welford update step. -/
def welfordStep (st : Moments) (x : ℚ) : Moments :=
  let n1 : ℕ := st.n + 1
  let d : ℚ := x - st.mean
  let mean1 : ℚ := st.mean + d / (n1 : ℚ)
  { n := n1, mean := mean1, m2 := st.m2 + d * (x - mean1) }

/-- Modelled from the spec (§4.3): numerically stable single-pass (Welford)
accumulation of count, mean and the centred second moment `M2`. -/
def welford (xs : List ℚ) : Moments := xs.foldl welfordStep ⟨0, 0, 0⟩

/-- The `SummaryOut` record of `api.ts`, with the standard deviation carried
as its square `std2` (the reported `std` is `√std2`, irrational in general,
so the embedding verifies its square). -/
structure SummaryOut where
  count : ℕ
  mean : Option ℚ
  median : Option ℚ
  std2 : Option ℚ
  min : Option ℚ
  max : Option ℚ
  iqr : Option ℚ
  mad : Option ℚ
deriving DecidableEq

/-- Modelled from the spec (§4.3): the summary record for a non-empty
sample.  Mean/variance via Welford; sample standard deviation with `n−1`
denominator, absent when `n < 2`; median/IQR by type-7 quantiles on a sorted
copy; MAD the median of absolute deviations from the median, unscaled. -/
def summaryOf (xs : List ℚ) : SummaryOut :=
  let w := welford xs
  let ys := sortQ xs
  let med := quantile7 ys (1 / 2)
  { count := w.n
    mean := some w.mean
    median := some med
    std2 := if 2 ≤ xs.length then some (w.m2 / ((xs.length : ℚ) - 1)) else none
    min := ys.head?
    max := ys.getLast?
    iqr := some (quantile7 ys (3 / 4) - quantile7 ys (1 / 4))
    mad := some (quantile7 (sortQ (xs.map (fun x => |x - med|))) (1 / 2)) }

/-- Modelled from the spec (§4.1, §4.3): `describe` rejects an empty sample
with `InvalidInput` and otherwise returns the summary record. -/
def describe (xs : List ℚ) : Except EngineError SummaryOut :=
  if xs.isEmpty then .error .invalidInput else .ok (summaryOf xs)

lemma welford_append_singleton (l : List ℚ) (x : ℚ) :
    welford (l ++ [x]) = welfordStep (welford l) x := by
  simp [welford, List.foldl_append]

lemma welford_spec (xs : List ℚ) :
    (welford xs).n = xs.length ∧
    ((xs.length : ℚ)) * (welford xs).mean = xs.sum ∧
    (welford xs).m2 =
      (xs.map (fun x => x ^ 2)).sum - (xs.length : ℚ) * (welford xs).mean ^ 2 := by
  induction xs using List.reverseRecOn with
  | nil => simp [welford]
  | append_singleton l x ih =>
      obtain ⟨hn, hm, h2⟩ := ih
      have hpos : (0 : ℚ) < (l.length : ℚ) + 1 := by positivity
      have hne : ((l.length : ℚ) + 1) ≠ 0 := ne_of_gt hpos
      rw [welford_append_singleton]
      simp only [welfordStep, hn, List.length_append, List.sum_append, List.map_append,
        List.length_cons, List.length_nil, List.sum_cons, List.sum_nil, List.map_cons,
        List.map_nil]
      push_cast
      refine ⟨by trivial, ?_, ?_⟩
      · rw [← hm]
        field_simp
        ring
      · rw [h2]
        field_simp
        ring

lemma quantile7_eq (ys : List ℚ) (p : ℚ) (j : ℕ)
    (hj : ⌊((ys.length : ℚ) - 1) * p⌋ = (j : ℤ)) :
    quantile7 ys p =
      nth ys j + (((ys.length : ℚ) - 1) * p - (j : ℚ)) * (nth ys (j + 1) - nth ys j) := by
  simp only [quantile7, hj, Int.toNat_natCast]

lemma sum_sq_dev (l : List ℚ) (c : ℚ) :
    (l.map (fun x => (x - c) ^ 2)).sum =
      (l.map (fun x => x ^ 2)).sum - 2 * c * l.sum + (l.length : ℚ) * c ^ 2 := by
  induction l with
  | nil => simp
  | cons a l ih =>
      simp only [List.map_cons, List.sum_cons, List.length_cons, ih]
      push_cast
      ring

/-- C3: `describe([1,2,3,4,5])` yields count 5, mean 3, median 3,
min 1, max 5, IQR 2 (type-7 quantiles), unscaled MAD 1, and a standard
deviation whose square is 5/2 — i.e. `std = √2.5 = 1.5811…`, bracketed by
the final two inequalities. -/
theorem describe_sample_12345 :
    summaryOf [1, 2, 3, 4, 5] =
      { count := 5, mean := some 3, median := some 3, std2 := some (5 / 2),
        min := some 1, max := some 5, iqr := some 2, mad := some 1 } ∧
    describe [1, 2, 3, 4, 5] = .ok (summaryOf [1, 2, 3, 4, 5]) ∧
    ((15811 : ℚ) / 10000) ^ 2 < 5 / 2 ∧ (5 / 2 : ℚ) < ((15812 : ℚ) / 10000) ^ 2 := by
  have hsort : sortQ [1, 2, 3, 4, 5] = [1, 2, 3, 4, 5] := by
    norm_num [sortQ, List.insertionSort, List.orderedInsert]
  have hw : welford [1, 2, 3, 4, 5] = ⟨5, 3, 10⟩ := by
    norm_num [welford, welfordStep]
  have hmed : quantile7 [1, 2, 3, 4, 5] (1 / 2) = 3 := by
    rw [quantile7_eq _ _ 2 (by norm_num)]; norm_num [nth]
  have hq1 : quantile7 [1, 2, 3, 4, 5] (1 / 4) = 2 := by
    rw [quantile7_eq _ _ 1 (by norm_num)]; norm_num [nth]
  have hq3 : quantile7 [1, 2, 3, 4, 5] (3 / 4) = 4 := by
    rw [quantile7_eq _ _ 3 (by norm_num)]; norm_num [nth]
  have hmadl : ([1, 2, 3, 4, 5] : List ℚ).map (fun x => |x - 3|) = [2, 1, 0, 1, 2] := by
    norm_num
  have hsort2 : sortQ [2, 1, 0, 1, 2] = [0, 1, 1, 2, 2] := by
    norm_num [sortQ, List.insertionSort, List.orderedInsert]
  have hmad : quantile7 [0, 1, 1, 2, 2] (1 / 2) = 1 := by
    rw [quantile7_eq _ _ 2 (by norm_num)]; norm_num [nth]
  refine ⟨?_, by simp [describe], by norm_num, by norm_num⟩
  simp only [summaryOf, hsort, hw, hmed, hmadl, hsort2, hmad, hq1, hq3]
  norm_num

/-- C5 (amended): for a NON-EMPTY sample, `describe` succeeds, its standard
deviation is the sample standard deviation — the square `std2` equals the
sum of squared deviations from the mean over `n−1` — whenever `n ≥ 2`, and
the `std` field is absent (`none`, not a number and not an error) when
`n < 2`, i.e. for samples of size exactly 1.  (The empty sample, also of
size `< 2`, is rejected with `InvalidInput` instead — see the
counterexample.) -/
theorem describe_std_policy (xs : List ℚ) (hne : xs ≠ []) :
    describe xs = .ok (summaryOf xs) ∧
    (2 ≤ xs.length →
      (summaryOf xs).std2 =
        some ((xs.map (fun x => (x - xs.sum / (xs.length : ℚ)) ^ 2)).sum /
          ((xs.length : ℚ) - 1))) ∧
    (xs.length < 2 → (summaryOf xs).std2 = none) := by
  refine ⟨by simp [describe, hne], ?_, ?_⟩
  · intro h2
    obtain ⟨hn, hm, hm2⟩ := welford_spec xs
    have hlen : (0 : ℚ) < (xs.length : ℚ) := by
      have : 0 < xs.length := by omega
      exact_mod_cast this
    have hmean : (welford xs).mean = xs.sum / (xs.length : ℚ) := by
      field_simp
      linear_combination hm
    have hdev : (xs.map (fun x => (x - xs.sum / (xs.length : ℚ)) ^ 2)).sum =
        (welford xs).m2 := by
      rw [sum_sq_dev, hm2, hmean]
      field_simp
      ring
    simp only [summaryOf, if_pos h2, hdev]
  · intro hlt
    simp only [summaryOf, if_neg (by omega : ¬ 2 ≤ xs.length)]

/-- C5 counterexample: the empty sample has size `0 < 2`, yet `describe`
returns the `InvalidInput` failure, not a summary record with an absent
`std` field — the claim's "rather than an error" fails at size 0. -/
theorem describe_empty_errors :
    describe ([] : List ℚ) = .error .invalidInput ∧
    ∀ out : SummaryOut, describe ([] : List ℚ) ≠ .ok out :=
  ⟨rfl, fun _ h => by simp [describe] at h⟩

/-- Witness for C5 at the concrete sample `[1, 2]`. -/
theorem describe_std_policy_witness :
    (([1, 2] : List ℚ) ≠ []) ∧
    (describe [1, 2] = .ok (summaryOf [1, 2]) ∧
     (2 ≤ ([1, 2] : List ℚ).length →
       (summaryOf [1, 2]).std2 =
         some ((([1, 2] : List ℚ).map
             (fun x => (x - ([1, 2] : List ℚ).sum / (([1, 2] : List ℚ).length : ℚ)) ^ 2)).sum /
           ((([1, 2] : List ℚ).length : ℚ) - 1))) ∧
     (([1, 2] : List ℚ).length < 2 → (summaryOf [1, 2]).std2 = none)) :=
  ⟨by decide, describe_std_policy [1, 2] (by decide)⟩

/-- Minimum of a sample (0 for the empty list, which callers exclude). -/
def listMin : List ℚ → ℚ
  | [] => 0
  | x :: r => r.foldl min x

/-- Maximum of a sample (0 for the empty list, which callers exclude). -/
def listMax : List ℚ → ℚ
  | [] => 0
  | x :: r => r.foldl max x

/-- Modelled from the spec (§4.4): the bin receiving value `x` for bins of
width `w` starting at `lo`, clamped to the last bin so the maximum falls in
the final, closed bin. -/
def binIndex (lo w : ℚ) (bins : ℕ) (x : ℚ) : ℕ :=
  min ⌊(x - lo) / w⌋.toNat (bins - 1)

/-- The histogram part of the `DistOut` record: bin counts and bin edges. -/
structure HistOut where
  counts : List ℕ
  edges : List ℚ
deriving DecidableEq

/-- Modelled from the spec (§4.4): histogram of a non-empty sample over
`bins` equal-width bins spanning `[min, max]`; the degenerate `max = min`
case produces one bin over an epsilon-widened range (ε = 1/2) instead of
dividing by zero. -/
def histogram (xs : List ℚ) (bins : ℕ) : HistOut :=
  let lo := listMin xs
  let hi := listMax xs
  if lo = hi then
    { counts := [xs.length], edges := [lo - 1 / 2, hi + 1 / 2] }
  else
    let w := (hi - lo) / (bins : ℚ)
    { counts := (List.range bins).map (fun j => xs.countP (fun x => binIndex lo w bins x == j)),
      edges := (List.range (bins + 1)).map (fun (i : ℕ) => lo + (i : ℚ) * w) }

lemma list_map_sum_add (L : List ℕ) (a b : ℕ → ℕ) :
    (L.map (fun j => a j + b j)).sum = (L.map a).sum + (L.map b).sum := by
  induction L with
  | nil => rfl
  | cons x L ih => simp [ih]; omega

lemma sum_indicator_range_of_ge (k n : ℕ) (h : n ≤ k) :
    ((List.range n).map (fun j => if k = j then 1 else 0)).sum = 0 := by
  induction n with
  | zero => rfl
  | succ n ih =>
      rw [List.range_succ, List.map_append, List.sum_append,
        ih (by omega)]
      simp [show k ≠ n by omega]

lemma sum_indicator_range (k n : ℕ) (h : k < n) :
    ((List.range n).map (fun j => if k = j then 1 else 0)).sum = 1 := by
  induction n with
  | zero => omega
  | succ n ih =>
      rw [List.range_succ, List.map_append, List.sum_append]
      by_cases hk : k = n
      · subst hk
        rw [sum_indicator_range_of_ge k k le_rfl]
        simp
      · rw [ih (by omega)]
        simp [hk]

lemma sum_count_partition (xs : List ℚ) (f : ℚ → ℕ) (bins : ℕ)
    (hf : ∀ x ∈ xs, f x < bins) :
    ((List.range bins).map (fun j => xs.countP (fun x => f x == j))).sum = xs.length := by
  induction xs with
  | nil => simp
  | cons x l ih =>
      simp only [List.countP_cons, List.length_cons]
      rw [list_map_sum_add]
      rw [ih (fun y hy => hf y (List.mem_cons_of_mem x hy))]
      have hx : f x < bins := hf x (List.mem_cons_self x l)
      have : ((List.range bins).map (fun j => if (f x == j) = true then 1 else 0)).sum = 1 := by
        simpa [beq_iff_eq] using sum_indicator_range (f x) bins hx
      omega

lemma foldl_min_le (l : List ℚ) (a : ℚ) : l.foldl min a ≤ a := by
  induction l generalizing a with
  | nil => exact le_rfl
  | cons x l ih => exact le_trans (ih (min a x)) (min_le_left a x)

lemma le_foldl_max (l : List ℚ) (a : ℚ) : a ≤ l.foldl max a := by
  induction l generalizing a with
  | nil => exact le_rfl
  | cons x l ih => exact le_trans (le_max_left a x) (ih (max a x))

lemma listMin_le_listMax (xs : List ℚ) (h : xs ≠ []) : listMin xs ≤ listMax xs := by
  match xs with
  | [] => exact absurd rfl h
  | x :: r =>
      exact le_trans (foldl_min_le r x) (le_foldl_max r x)

lemma chain_map_range (f : ℕ → ℚ) (r : ℚ → ℚ → Prop) (n : ℕ)
    (hf : ∀ i, i + 1 < n → r (f i) (f (i + 1))) :
    List.Chain' r ((List.range n).map f) := by
  cases n with
  | zero => simp
  | succ k =>
      rw [List.chain'_map, List.chain'_range_succ]
      intro m hm
      exact hf m (by omega)

/-- C4: for every non-empty sample and every positive bin count — hence for
the count any bin rule resolves to, including the degenerate `max = min`
single-bin case — the histogram's counts sum exactly to the number of input
values, its edges are strictly increasing, and there is exactly one more
edge than bins. -/
theorem histogram_invariants (xs : List ℚ) (bins : ℕ) (hxs : xs ≠ []) (hb : 1 ≤ bins) :
    (histogram xs bins).counts.sum = xs.length ∧
    List.Chain' (· < ·) (histogram xs bins).edges ∧
    (histogram xs bins).edges.length = (histogram xs bins).counts.length + 1 := by
  unfold histogram
  by_cases hdeg : listMin xs = listMax xs
  · rw [if_pos hdeg]
    refine ⟨by simp, ?_, by simp⟩
    simp only [List.chain'_cons, List.chain'_singleton, and_true]
    linarith
  · rw [if_neg hdeg]
    dsimp only
    have hlt : listMin xs < listMax xs :=
      lt_of_le_of_ne (listMin_le_listMax xs hxs) hdeg
    have hbq : (0 : ℚ) < (bins : ℚ) := by
      have : 0 < bins := hb
      exact_mod_cast this
    have hw : 0 < (listMax xs - listMin xs) / (bins : ℚ) :=
      div_pos (by linarith) hbq
    refine ⟨?_, ?_, by simp⟩
    · exact sum_count_partition xs _ bins
        (fun x _ => lt_of_le_of_lt (min_le_right _ _) (by omega))
    · refine chain_map_range _ _ _ (fun i _ => ?_)
      have : ((i : ℚ)) * ((listMax xs - listMin xs) / (bins : ℚ)) <
          ((i : ℚ) + 1) * ((listMax xs - listMin xs) / (bins : ℚ)) := by
        apply mul_lt_mul_of_pos_right _ hw
        linarith
      push_cast
      linarith

/-- Witness for C4 at the sample `[1, 2, 3]` with two bins. -/
theorem histogram_invariants_witness :
    (([1, 2, 3] : List ℚ) ≠ []) ∧ 1 ≤ 2 ∧
    ((histogram [1, 2, 3] 2).counts.sum = ([1, 2, 3] : List ℚ).length ∧
     List.Chain' (· < ·) (histogram [1, 2, 3] 2).edges ∧
     (histogram [1, 2, 3] 2).edges.length = (histogram [1, 2, 3] 2).counts.length + 1) :=
  ⟨by decide, by decide, histogram_invariants [1, 2, 3] 2 (by decide) (by decide)⟩

/-- The `EcdfOut` record of `api.ts`: sorted sample points and cumulative
probabilities. -/
structure EcdfOut where
  xs : List ℚ
  ps : List ℚ
deriving DecidableEq

/-- Modelled from the spec (§4.5): index into the sorted sample of the
`i`-th of `m` uniformly-by-index subsampled points of an `n`-point ECDF. -/
def ssIdx (n m i : ℕ) : ℕ := i * (n - 1) / (m - 1)

/-- Modelled from the spec (§4.5): sort the values, `ps[i] = (i+1)/n`; when
`max_points = m` is set and `n` exceeds it, subsample the sorted sequence
uniformly by index to `m` points, always retaining the first and the last
point. -/
def ecdf (s : List ℚ) (mp : Option ℕ) : EcdfOut :=
  let ys := sortQ s
  let n := s.length
  match mp with
  | none => ⟨ys, (List.range n).map (fun (i : ℕ) => ((i : ℚ) + 1) / (n : ℚ))⟩
  | some m =>
      if n ≤ m then ⟨ys, (List.range n).map (fun (i : ℕ) => ((i : ℚ) + 1) / (n : ℚ))⟩
      else
        ⟨(List.range m).map (fun i => nth ys (ssIdx n m i)),
         (List.range m).map (fun (i : ℕ) => ((ssIdx n m i : ℚ) + 1) / (n : ℚ))⟩

lemma nth_eq_get (l : List ℚ) (i : ℕ) (h : i < l.length) :
    nth l i = l.get ⟨i, h⟩ := by
  simp [nth, List.getD_eq_getElem?_getD, List.getElem?_eq_getElem h]

lemma head?_eq_nth (l : List ℚ) (h : l ≠ []) : l.head? = some (nth l 0) := by
  match l with
  | [] => exact absurd rfl h
  | x :: r => simp [nth]

lemma getLast?_eq_nth (l : List ℚ) (h : l ≠ []) :
    l.getLast? = some (nth l (l.length - 1)) := by
  have hl : l.length - 1 < l.length := by
    cases l with
    | nil => exact absurd rfl h
    | cons x r => simp
  rw [List.getLast?_eq_getElem?, List.getElem?_eq_getElem hl,
    nth_eq_get l _ hl]
  rfl

lemma sortQ_sorted (s : List ℚ) : List.Sorted (· ≤ ·) (sortQ s) :=
  List.sorted_insertionSort (· ≤ ·) s

lemma sortQ_perm (s : List ℚ) : List.Perm (sortQ s) s :=
  List.perm_insertionSort (· ≤ ·) s

lemma sortQ_length (s : List ℚ) : (sortQ s).length = s.length :=
  (sortQ_perm s).length_eq

lemma sortQ_ne_nil (s : List ℚ) (h : s ≠ []) : sortQ s ≠ [] := by
  intro hc
  apply h
  have hl := sortQ_length s
  rw [hc] at hl
  exact List.length_eq_zero.mp hl.symm

lemma nth_sortQ_mono (s : List ℚ) {i j : ℕ} (hij : i ≤ j) (hj : j < s.length) :
    nth (sortQ s) i ≤ nth (sortQ s) j := by
  have hj' : j < (sortQ s).length := by rw [sortQ_length]; exact hj
  have hi' : i < (sortQ s).length := lt_of_le_of_lt hij hj'
  rw [nth_eq_get _ _ hi', nth_eq_get _ _ hj']
  exact (sortQ_sorted s).rel_get_of_le hij

lemma ssIdx_mono (n m : ℕ) {i j : ℕ} (hij : i ≤ j) : ssIdx n m i ≤ ssIdx n m j :=
  Nat.div_le_div_right (Nat.mul_le_mul_right _ hij)

lemma ssIdx_zero (n m : ℕ) : ssIdx n m 0 = 0 := by simp [ssIdx]

lemma ssIdx_last (n m : ℕ) (hm : 2 ≤ m) : ssIdx n m (m - 1) = n - 1 := by
  have h1 : 0 < m - 1 := by omega
  simp only [ssIdx]
  exact Nat.mul_div_cancel_left (n - 1) h1

lemma ssIdx_lt (n m i : ℕ) (hm : 2 ≤ m) (hi : i < m) (hn : 0 < n) :
    ssIdx n m i < n := by
  have : ssIdx n m i ≤ ssIdx n m (m - 1) := ssIdx_mono n m (by omega)
  rw [ssIdx_last n m hm] at this
  omega

/-- C6: for a non-empty sample the ECDF's `xs` is the sorted sample
(sorted, a permutation of the input), `ps[i] = (i+1)/n`, `ps` is
non-decreasing with final element exactly 1; and when `max_points = m`
(with `2 ≤ m < n`) both subsampled sequences stay monotone and the first
and last point of `xs` — and the final probability 1 — are retained. -/
theorem ecdf_spec (s : List ℚ) (hs : s ≠ []) :
    ((ecdf s none).xs.Sorted (· ≤ ·) ∧ List.Perm (ecdf s none).xs s) ∧
    (∀ i, i < s.length →
      (ecdf s none).ps.getD i 0 = ((i : ℚ) + 1) / (s.length : ℚ)) ∧
    (List.Chain' (· ≤ ·) (ecdf s none).ps ∧
      (ecdf s none).ps.getLast? = some 1) ∧
    (∀ m, 2 ≤ m → m < s.length →
      List.Chain' (· ≤ ·) (ecdf s (some m)).xs ∧
      List.Chain' (· ≤ ·) (ecdf s (some m)).ps ∧
      (ecdf s (some m)).xs.head? = (sortQ s).head? ∧
      (ecdf s (some m)).xs.getLast? = (sortQ s).getLast? ∧
      (ecdf s (some m)).ps.getLast? = some 1) := by
  have hn : 0 < s.length := List.length_pos.mpr hs
  have hnq : (0 : ℚ) < (s.length : ℚ) := by exact_mod_cast hn
  obtain ⟨k, hk⟩ : ∃ k, s.length = k + 1 := ⟨s.length - 1, by omega⟩
  refine ⟨⟨sortQ_sorted s, sortQ_perm s⟩, ?_, ⟨?_, ?_⟩, ?_⟩
  · intro i hi
    simp only [ecdf]
    rw [List.getD_eq_getElem?_getD]
    rw [List.getElem?_eq_getElem (by simpa using hi)]
    simp
  · simp only [ecdf]
    refine chain_map_range _ _ _ (fun i _ => ?_)
    gcongr
    linarith
  · simp only [ecdf, hk, List.range_succ, List.map_append, List.map_cons, List.map_nil,
      List.getLast?_concat]
    have hkq : ((k : ℚ) + 1) = (((k + 1 : ℕ)) : ℚ) := by push_cast; ring
    rw [hkq, div_self (Nat.cast_ne_zero.mpr (Nat.succ_ne_zero k))]
  · intro m hm hmn
    have hnotle : ¬ s.length ≤ m := by omega
    obtain ⟨t, ht⟩ : ∃ t, m = t + 1 := ⟨m - 1, by omega⟩
    have hxs : (ecdf s (some m)).xs =
        (List.range m).map (fun i => nth (sortQ s) (ssIdx s.length m i)) := by
      simp only [ecdf, if_neg hnotle]
    have hps : (ecdf s (some m)).ps =
        (List.range m).map (fun (i : ℕ) => ((ssIdx s.length m i : ℚ) + 1) / (s.length : ℚ)) := by
      simp only [ecdf, if_neg hnotle]
    refine ⟨?_, ?_, ?_, ?_, ?_⟩
    · rw [hxs]
      refine chain_map_range _ _ _ (fun i hi => ?_)
      exact nth_sortQ_mono s (ssIdx_mono _ _ (by omega))
        (ssIdx_lt s.length m (i + 1) hm (by omega) hn)
    · rw [hps]
      refine chain_map_range _ _ _ (fun i _ => ?_)
      have hmono : ((ssIdx s.length m i : ℚ)) ≤ ((ssIdx s.length m (i + 1) : ℚ)) := by
        exact_mod_cast ssIdx_mono s.length m (by omega : i ≤ i + 1)
      gcongr
    · rw [hxs, ht, List.range_succ_eq_map, List.map_cons, List.head?_cons,
        head?_eq_nth (sortQ s) (sortQ_ne_nil s hs), ssIdx_zero]
    · have hlast : ssIdx s.length (t + 1) t = s.length - 1 := by
        simpa using ssIdx_last s.length (t + 1) (by omega)
      rw [hxs, ht, List.range_succ, List.map_append, List.map_cons, List.map_nil,
        List.getLast?_concat,
        getLast?_eq_nth (sortQ s) (sortQ_ne_nil s hs), sortQ_length, hlast]
    · have hlast : ssIdx s.length (t + 1) t = s.length - 1 := by
        simpa using ssIdx_last s.length (t + 1) (by omega)
      rw [hps, ht, List.range_succ, List.map_append, List.map_cons, List.map_nil,
        List.getLast?_concat, hlast]
      have hcast : ((s.length - 1 : ℕ) : ℚ) = (s.length : ℚ) - 1 := by
        have h1 : 1 ≤ s.length := hn
        push_cast [h1]
        ring
      rw [hcast]
      have hdiv : (s.length : ℚ) - 1 + 1 = (s.length : ℚ) := by ring
      rw [hdiv, div_self (ne_of_gt hnq)]

/-- Witness for C6 at the concrete sample `[3, 1, 2]` with `max_points` 2. -/
theorem ecdf_spec_witness :
    (([3, 1, 2] : List ℚ) ≠ []) ∧
    (((ecdf [3, 1, 2] none).xs.Sorted (· ≤ ·) ∧ List.Perm (ecdf [3, 1, 2] none).xs [3, 1, 2]) ∧
     (∀ i, i < ([3, 1, 2] : List ℚ).length →
       (ecdf [3, 1, 2] none).ps.getD i 0 = ((i : ℚ) + 1) / (([3, 1, 2] : List ℚ).length : ℚ)) ∧
     (List.Chain' (· ≤ ·) (ecdf [3, 1, 2] none).ps ∧
       (ecdf [3, 1, 2] none).ps.getLast? = some 1) ∧
     (∀ m, 2 ≤ m → m < ([3, 1, 2] : List ℚ).length →
       List.Chain' (· ≤ ·) (ecdf [3, 1, 2] (some m)).xs ∧
       List.Chain' (· ≤ ·) (ecdf [3, 1, 2] (some m)).ps ∧
       (ecdf [3, 1, 2] (some m)).xs.head? = (sortQ [3, 1, 2]).head? ∧
       (ecdf [3, 1, 2] (some m)).xs.getLast? = (sortQ [3, 1, 2]).getLast? ∧
       (ecdf [3, 1, 2] (some m)).ps.getLast? = some 1)) :=
  ⟨by decide, ecdf_spec [3, 1, 2] (by decide)⟩

/-- Payload of the modelled `normalize` operation.  For `minmax` the exact
rescaled values; for `zscore` the deviations from the mean together with the
sample variance `var2`, the reported value being `devs[i] / √var2`
(irrational in general, so the embedding carries the pair exactly). -/
inductive NormalizeOut where
  | minmaxOut : List ℚ → NormalizeOut
  | zscoreOut : List ℚ → ℚ → NormalizeOut
deriving DecidableEq

/-- Modelled from the spec (§4.1, §4.8, §7): `normalize(sample, method,
range)`.  An unsupported method name fails with `InvalidParameters`; an
empty sample with `InvalidInput`; z-score needs `n ≥ 2` (variance-based,
`InsufficientSample`) and nonzero variance (`DivisionByZero`); min-max
needs a nonzero range (`DivisionByZero`). -/
def normalizeOp (xs : List ℚ) (method : String) (lo hi : ℚ) :
    Except EngineError NormalizeOut :=
  if method = "zscore" then
    if xs.isEmpty then .error .invalidInput
    else if xs.length < 2 then .error .insufficientSample
    else
      let w := welford xs
      let v := w.m2 / ((xs.length : ℚ) - 1)
      if v = 0 then .error .divisionByZero
      else .ok (.zscoreOut (xs.map (fun x => x - w.mean)) v)
  else if method = "minmax" then
    if xs.isEmpty then .error .invalidInput
    else
      let mn := listMin xs
      let mx := listMax xs
      if mx = mn then .error .divisionByZero
      else .ok (.minmaxOut (xs.map (fun x => lo + (x - mn) / (mx - mn) * (hi - lo))))
  else .error .invalidParameters

/-- C8: over the modelled kernels, every invalid branch fails with its
distinct, inspectable `EngineError` value returned to the caller
(`InvalidInput` for an empty sample, `InvalidParameters` for an unsupported
method name, `InsufficientSample` for a variance-based statistic on `n < 2`,
`DivisionByZero` for zero variance or zero range), every call returns a
value (`ok` or `error`, never a crash), and a successful result record
holds exactly rationals — the embedding of finite doubles — of the expected
shape, never NaN or ±Infinity. -/
theorem engine_error_model (xs : List ℚ) (method : String) (lo hi : ℚ) :
    (describe xs = .error .invalidInput ↔ xs = []) ∧
    (method ≠ "zscore" → method ≠ "minmax" →
      normalizeOp xs method lo hi = .error .invalidParameters) ∧
    (xs ≠ [] → xs.length < 2 →
      normalizeOp xs "zscore" lo hi = .error .insufficientSample) ∧
    (2 ≤ xs.length → (welford xs).m2 / ((xs.length : ℚ) - 1) = 0 →
      normalizeOp xs "zscore" lo hi = .error .divisionByZero) ∧
    (xs ≠ [] → listMax xs = listMin xs →
      normalizeOp xs "minmax" lo hi = .error .divisionByZero) ∧
    (xs ≠ [] → listMax xs ≠ listMin xs →
      normalizeOp xs "minmax" lo hi =
        .ok (.minmaxOut (xs.map (fun x =>
          lo + (x - listMin xs) / (listMax xs - listMin xs) * (hi - lo)))) ∧
      ∀ vs, normalizeOp xs "minmax" lo hi = .ok (.minmaxOut vs) →
        vs.length = xs.length) ∧
    ((∃ e, normalizeOp xs method lo hi = .error e) ∨
      (∃ out, normalizeOp xs method lo hi = .ok out)) := by
  have hempty : xs.isEmpty = true ↔ xs = [] := List.isEmpty_iff
  refine ⟨?_, ?_, ?_, ?_, ?_, ?_, ?_⟩
  · constructor
    · intro h
      by_cases hc : xs.isEmpty
      · exact hempty.mp hc
      · simp [describe, hc] at h
    · intro h
      subst h
      rfl
  · intro h1 h2
    simp [normalizeOp, h1, h2]
  · intro hne hlt
    have : ¬ xs.isEmpty = true := fun hc => hne (hempty.mp hc)
    simp [normalizeOp, this, hlt]
  · intro h2 hv
    have hne : ¬ xs.isEmpty = true := by
      intro hc
      rw [hempty.mp hc] at h2
      simp at h2
    simp [normalizeOp, hne, show ¬ xs.length < 2 by omega, hv]
  · intro hne hdeg
    have : ¬ xs.isEmpty = true := fun hc => hne (hempty.mp hc)
    simp [normalizeOp, this, hdeg]
  · intro hne hdeg
    have hne' : ¬ xs.isEmpty = true := fun hc => hne (hempty.mp hc)
    constructor
    · simp [normalizeOp, hne', hdeg]
    · intro vs hvs
      simp [normalizeOp, hne', hdeg] at hvs
      rw [← hvs]
      simp
  · cases h : normalizeOp xs method lo hi with
    | error e => exact Or.inl ⟨e, rfl⟩
    | ok out => exact Or.inr ⟨out, rfl⟩

/-- Witness for C8 at `xs = [1, 1]`, method `"minmax"`, range `[0, 1]`
(degenerate zero-range sample). -/
theorem engine_error_model_witness :
    (describe ([1, 1] : List ℚ) = .error .invalidInput ↔ ([1, 1] : List ℚ) = []) ∧
    ("bogus" ≠ "zscore" → "bogus" ≠ "minmax" →
      normalizeOp [1, 1] "bogus" 0 1 = .error .invalidParameters) ∧
    (([1, 1] : List ℚ) ≠ [] → ([1, 1] : List ℚ).length < 2 →
      normalizeOp [1, 1] "zscore" 0 1 = .error .insufficientSample) ∧
    (2 ≤ ([1, 1] : List ℚ).length →
      (welford [1, 1]).m2 / ((([1, 1] : List ℚ).length : ℚ) - 1) = 0 →
      normalizeOp [1, 1] "zscore" 0 1 = .error .divisionByZero) ∧
    (([1, 1] : List ℚ) ≠ [] → listMax [1, 1] = listMin [1, 1] →
      normalizeOp [1, 1] "minmax" 0 1 = .error .divisionByZero) ∧
    (([1, 1] : List ℚ) ≠ [] → listMax [1, 1] ≠ listMin [1, 1] →
      normalizeOp [1, 1] "minmax" 0 1 =
        .ok (.minmaxOut (([1, 1] : List ℚ).map (fun x =>
          0 + (x - listMin [1, 1]) / (listMax [1, 1] - listMin [1, 1]) * (1 - 0)))) ∧
      ∀ vs, normalizeOp [1, 1] "minmax" 0 1 = .ok (.minmaxOut vs) →
        vs.length = ([1, 1] : List ℚ).length) ∧
    ((∃ e, normalizeOp [1, 1] "bogus" 0 1 = .error e) ∨
      (∃ out, normalizeOp [1, 1] "bogus" 0 1 = .ok out)) :=
  engine_error_model [1, 1] "bogus" 0 1

/-- C2: every modelled engine operation is deterministic — two invocations
on equal inputs return equal outputs, and no result depends on anything but
the arguments (the kernels are total functions of their inputs; there is no
ambient state in their signatures to depend on). -/
theorem engine_deterministic (xs ys : List ℚ) (h : xs = ys) (bins : ℕ)
    (mp : Option ℕ) (method : String) (lo hi : ℚ) :
    describe xs = describe ys ∧ summaryOf xs = summaryOf ys ∧
    histogram xs bins = histogram ys bins ∧ ecdf xs mp = ecdf ys mp ∧
    normalizeOp xs method lo hi = normalizeOp ys method lo hi := by
  subst h
  exact ⟨rfl, rfl, rfl, rfl, rfl⟩

/-- Witness for C2 at the concrete sample `[2, 1]`. -/
theorem engine_deterministic_witness :
    (([2, 1] : List ℚ) = [2, 1]) ∧
    (describe [2, 1] = describe [2, 1] ∧ summaryOf [2, 1] = summaryOf [2, 1] ∧
     histogram [2, 1] 3 = histogram [2, 1] 3 ∧
     ecdf [2, 1] (some 2) = ecdf [2, 1] (some 2) ∧
     normalizeOp [2, 1] "zscore" 0 1 = normalizeOp [2, 1] "zscore" 0 1) :=
  ⟨rfl, engine_deterministic [2, 1] [2, 1] rfl 3 (some 2) "zscore" 0 1⟩

/-- Modelled from the spec (§4.2): two-sided p-value from a test statistic
`t` against a symmetric (Normal / Student-t) CDF: `p = 2 * (1 − cdf |t|)`. -/
def twoSidedP (cdf : ℚ → ℚ) (t : ℚ) : ℚ := 2 * (1 - cdf |t|)

/-- Modelled from the spec (§4.2): right-tailed p-value `p = 1 − cdf s` for
Chi-square / F statistics. -/
def rightTailP (cdf : ℚ → ℚ) (s : ℚ) : ℚ := 1 - cdf s

/-- p-value of the two-sample t-test: two-sided from the t CDF (§4.9). -/
def tTestPValue (cdf : ℚ → ℚ) (t : ℚ) : ℚ := twoSidedP cdf t

/-- p-value of one-way ANOVA: right-tailed from the F CDF (§4.9). -/
def anovaPValue (cdf : ℚ → ℚ) (fstat : ℚ) : ℚ := rightTailP cdf fstat

/-- p-value of the chi-square independence test: right-tailed (§4.9). -/
def chisqPValue (cdf : ℚ → ℚ) (x2 : ℚ) : ℚ := rightTailP cdf x2

/-- p-value of an OLS coefficient: two-sided from Student's t (§4.10). -/
def olsPValue (cdf : ℚ → ℚ) (t : ℚ) : ℚ := twoSidedP cdf t

/-- A concrete distribution function witnessing the spec's CDF contract: a
monotone sigmoid with median 0 and values in [0, 1]. -/
def sigCdf (x : ℚ) : ℚ := 1 / 2 + x / (2 * (1 + |x|))

lemma sigCdf_zero : sigCdf 0 = 1 / 2 := by norm_num [sigCdf]

lemma sigCdf_nonneg (x : ℚ) : 0 ≤ sigCdf x := by
  have hd : (0 : ℚ) < 2 * (1 + |x|) := by positivity
  have he : (-(1 + |x|)) / (2 * (1 + |x|)) = -(1 / 2) := by
    rw [div_eq_iff (ne_of_gt hd)]
    ring
  have hle : (-(1 + |x|)) / (2 * (1 + |x|)) ≤ x / (2 * (1 + |x|)) := by
    gcongr
    linarith [neg_abs_le x]
  rw [he] at hle
  simp only [sigCdf]
  linarith

lemma sigCdf_le_one (x : ℚ) : sigCdf x ≤ 1 := by
  have hd : (0 : ℚ) < 2 * (1 + |x|) := by positivity
  have he : (1 + |x|) / (2 * (1 + |x|)) = 1 / 2 := by
    rw [div_eq_iff (ne_of_gt hd)]
    ring
  have hle : x / (2 * (1 + |x|)) ≤ (1 + |x|) / (2 * (1 + |x|)) := by
    gcongr
    linarith [le_abs_self x]
  rw [he] at hle
  simp only [sigCdf]
  linarith

lemma sigCdf_monotone : Monotone sigCdf := by
  intro a b hab
  simp only [sigCdf]
  have hda : (0 : ℚ) < 2 * (1 + |a|) := by positivity
  have hdb : (0 : ℚ) < 2 * (1 + |b|) := by positivity
  have key : a * (2 * (1 + |b|)) ≤ b * (2 * (1 + |a|)) := by
    rcases abs_cases a with ⟨ha, ha0⟩ | ⟨ha, ha0⟩ <;>
      rcases abs_cases b with ⟨hb, hb0⟩ | ⟨hb, hb0⟩ <;>
        rw [ha, hb] <;> nlinarith
  have := (div_le_div_iff₀ hda hdb).mpr key
  linarith

/-- C7: for every distribution function satisfying the spec's CDF contract —
monotone, valued in [0, 1], and with median 1/2 at 0 for the symmetric
Normal/t family — the p-value each hypothesis-test / regression operation
derives (`2·(1 − cdf |t|)` two-sided for the t-test and OLS coefficients,
`1 − cdf stat` right-tailed for ANOVA and chi-square) lies in [0, 1], for
every statistic value. -/
theorem pvalues_in_unit_interval (tcdf fcdf ccdf : ℚ → ℚ)
    (htm : Monotone tcdf) (ht1 : ∀ x, tcdf x ≤ 1) (htmed : tcdf 0 = 1 / 2)
    (hf0 : ∀ x, 0 ≤ fcdf x) (hf1 : ∀ x, fcdf x ≤ 1)
    (hc0 : ∀ x, 0 ≤ ccdf x) (hc1 : ∀ x, ccdf x ≤ 1) :
    ∀ t fstat x2 tOls : ℚ,
      (0 ≤ tTestPValue tcdf t ∧ tTestPValue tcdf t ≤ 1) ∧
      (0 ≤ anovaPValue fcdf fstat ∧ anovaPValue fcdf fstat ≤ 1) ∧
      (0 ≤ chisqPValue ccdf x2 ∧ chisqPValue ccdf x2 ≤ 1) ∧
      (0 ≤ olsPValue tcdf tOls ∧ olsPValue tcdf tOls ≤ 1) := by
  intro t fstat x2 tOls
  have key : ∀ u : ℚ, 0 ≤ twoSidedP tcdf u ∧ twoSidedP tcdf u ≤ 1 := by
    intro u
    have h1 : tcdf |u| ≤ 1 := ht1 _
    have hmed : (1 : ℚ) / 2 ≤ tcdf |u| := by
      have := htm (abs_nonneg u)
      rw [htmed] at this
      exact this
    exact ⟨by simp only [twoSidedP]; linarith, by simp only [twoSidedP]; linarith⟩
  refine ⟨key t, ⟨?_, ?_⟩, ⟨?_, ?_⟩, key tOls⟩
  · simp only [anovaPValue, rightTailP]
    linarith [hf1 fstat]
  · simp only [anovaPValue, rightTailP]
    linarith [hf0 fstat]
  · simp only [chisqPValue, rightTailP]
    linarith [hc1 x2]
  · simp only [chisqPValue, rightTailP]
    linarith [hc0 x2]

/-- Witness for C7: the concrete sigmoid CDF satisfies the contract, and
the four p-values at statistics 2, 3, 4 and −5 all lie in [0, 1]. -/
theorem pvalues_in_unit_interval_witness :
    Monotone sigCdf ∧ (∀ x, sigCdf x ≤ 1) ∧ sigCdf 0 = 1 / 2 ∧
    (∀ x, 0 ≤ sigCdf x) ∧
    ((0 ≤ tTestPValue sigCdf 2 ∧ tTestPValue sigCdf 2 ≤ 1) ∧
     (0 ≤ anovaPValue sigCdf 3 ∧ anovaPValue sigCdf 3 ≤ 1) ∧
     (0 ≤ chisqPValue sigCdf 4 ∧ chisqPValue sigCdf 4 ≤ 1) ∧
     (0 ≤ olsPValue sigCdf (-5) ∧ olsPValue sigCdf (-5) ≤ 1)) :=
  ⟨sigCdf_monotone, sigCdf_le_one, sigCdf_zero, sigCdf_nonneg,
    pvalues_in_unit_interval sigCdf sigCdf sigCdf sigCdf_monotone sigCdf_le_one
      sigCdf_zero sigCdf_nonneg sigCdf_le_one sigCdf_nonneg sigCdf_le_one
      2 3 4 (-5)⟩

/-!
## The Node backend

Embedded from the Express server source: the `/analyze/*` proxy handlers,
the in-memory job store (`insertJob`/`updateJob`), the `/upload` handler's
job creation and the background `processJob` worker.
-/

/-- The JavaScript whitespace characters `String.prototype.trim` strips
(ASCII subset; the handlers' CSV bodies are ASCII). -/
def isJsSpace (c : Char) : Bool :=
  c == ' ' || c == '\t' || c == '\n' || c == '\r' || c == '\x0b' || c == '\x0c'

/-- The handler's guard `!csv.trim()`: the body is empty or consists only
of whitespace. -/
def bodyBlank (csv : String) : Bool := csv.toList.all isJsSpace

/-- An HTTP JSON response of the backend: status code, optional `error`
field of the JSON body, optional proxied payload. -/
structure HttpResponse where
  status : ℕ
  error : Option String
  payload : Option String
deriving DecidableEq

/-- From the backend source: the common shape of the `POST /analyze/summary`
and `POST /analyze/distribution` handlers.  `body` is `req.body ?? ""`
(absent when the content type did not match the CSV text parser),
`upstream` the outcome of `fetchJSON` against the Rust stats service —
consulted only past the body guard: a blank body short-circuits to
400 `"empty CSV body"`; an upstream throw is caught and reported as 502
with the error's message in the JSON body. -/
def analyzeHandler (body : Option String) (upstream : Except String String) :
    HttpResponse :=
  let csv := body.getD ""
  if bodyBlank csv then
    { status := 400, error := some "empty CSV body", payload := none }
  else
    match upstream with
    | .ok out => { status := 200, error := none, payload := some out }
    | .error msg => { status := 502, error := some msg, payload := none }

/-- `POST /analyze/summary`, proxying `{RUST_SVC_URL}/api/v1/stats/summary`. -/
def summaryHandler : Option String → Except String String → HttpResponse :=
  analyzeHandler

/-- `POST /analyze/distribution`, proxying
`{RUST_SVC_URL}/api/v1/stats/distribution`. -/
def distributionHandler : Option String → Except String String → HttpResponse :=
  analyzeHandler

/-- C9: for both analyze endpoints, a missing, empty or whitespace-only
body yields HTTP 400 with error `"empty CSV body"`, and the response is the
same whatever the upstream service would have returned — the upstream is
never consulted; for a non-blank body, an upstream failure with message
`msg` yields HTTP 502 with that message as the JSON error. -/
theorem analyze_handlers_spec (body : Option String) (u : Except String String) :
    (bodyBlank (body.getD "") = true →
      summaryHandler body u =
        { status := 400, error := some "empty CSV body", payload := none } ∧
      distributionHandler body u =
        { status := 400, error := some "empty CSV body", payload := none } ∧
      ∀ u', summaryHandler body u' = summaryHandler body u ∧
        distributionHandler body u' = distributionHandler body u) ∧
    (∀ msg, bodyBlank (body.getD "") = false → u = .error msg →
      summaryHandler body u =
        { status := 502, error := some msg, payload := none } ∧
      distributionHandler body u =
        { status := 502, error := some msg, payload := none }) := by
  constructor
  · intro hblank
    refine ⟨?_, ?_, ?_⟩
    · simp [summaryHandler, analyzeHandler, hblank]
    · simp [distributionHandler, analyzeHandler, hblank]
    · intro u'
      constructor <;> simp [summaryHandler, distributionHandler, analyzeHandler, hblank]
  · intro msg hblank hu
    subst hu
    constructor <;> simp [summaryHandler, distributionHandler, analyzeHandler, hblank]

/-- Witness for C9: a whitespace-only body with a healthy upstream gives
400 regardless of the upstream value, and a non-blank body with a failing
upstream gives 502 with the message. -/
theorem analyze_handlers_spec_witness :
    (bodyBlank ((some "  \n " : Option String).getD "") = true ∧
      summaryHandler (some "  \n ") (.ok "out") =
        { status := 400, error := some "empty CSV body", payload := none } ∧
      summaryHandler (some "  \n ") (.error "down") =
        summaryHandler (some "  \n ") (.ok "out")) ∧
    (bodyBlank ((some "1,2" : Option String).getD "") = false ∧
      summaryHandler (some "1,2") (.error "boom") =
        { status := 502, error := some "boom", payload := none }) := by
  have h1 : bodyBlank ((some "  \n " : Option String).getD "") = true := by decide
  have h2 : bodyBlank ((some "1,2" : Option String).getD "") = false := by decide
  refine ⟨⟨h1, ?_, ?_⟩, ⟨h2, ?_⟩⟩
  · exact ((analyze_handlers_spec (some "  \n ") (.ok "out")).1 h1).1
  · exact (((analyze_handlers_spec (some "  \n ") (.ok "out")).1 h1).2.2 (.error "down")).1
  · exact ((analyze_handlers_spec (some "1,2") (.error "boom")).2 "boom" h2 rfl).1

/-- Job status, from the backend's `JobStatus` union type. -/
inductive JobStatus where
  | queued : JobStatus
  | running : JobStatus
  | succeeded : JobStatus
  | failed : JobStatus
deriving DecidableEq

/-- The backend's `JobDoc` record.  Timestamps (`nowISO()`) are abstract
ticks; `params` and `result` payloads are opaque strings. -/
structure JobDoc where
  jobId : String
  kind : String
  status : JobStatus
  filePath : String
  params : String
  createdAt : ℕ
  updatedAt : ℕ
  error : Option String
  result : Option String
deriving DecidableEq

/-- A `Partial<JobDoc>` patch as `updateJob` receives it, restricted to the
fields the backend ever patches (`status`, `error`, `result`); an absent
field leaves the stored value unchanged. -/
structure JobPatch where
  status : Option JobStatus
  error : Option String
  result : Option String
deriving DecidableEq

/-- The spread `Mem[jobId] = { ...j, ...patch, updatedAt: nowISO() }`. -/
def applyPatch (j : JobDoc) (p : JobPatch) (now : ℕ) : JobDoc :=
  { j with
    status := p.status.getD j.status
    error := match p.error with | some e => some e | none => j.error
    result := match p.result with | some r => some r | none => j.result
    updatedAt := now }

/-- The in-memory job store `Mem`. -/
def JobStore : Type := String → Option JobDoc

/-- `updateJob(jobId, patch)`: patch the stored job when present; every
other entry untouched. -/
def updateJob (mem : JobStore) (jobId : String) (p : JobPatch) (now : ℕ) :
    JobStore :=
  fun k => if k = jobId then (mem jobId).map (fun j => applyPatch j p now) else mem k

/-- The `/upload` handler's `insertJob(jobDoc)`: a fresh job document with
status `queued` and no error or result. -/
def uploadInsert (mem : JobStore) (jobId kind filePath params : String) (t : ℕ) :
    JobStore :=
  fun k =>
    if k = jobId then
      some { jobId := jobId, kind := kind, status := .queued, filePath := filePath,
             params := params, createdAt := t, updatedAt := t,
             error := none, result := none }
    else mem k

/-- Outcome of a job's work (the body of `processJob`'s `try`): a result
(stats JSON / plot path) or a thrown error's message. -/
inductive WorkOutcome where
  | done : String → WorkOutcome
  | thrown : String → WorkOutcome
deriving DecidableEq

/-- `processJob`: first `updateJob(status: "running")`, then — exactly one
of — `updateJob(status: "succeeded", result)` on success or
`updateJob(status: "failed", error)` on a caught throw. -/
def processJob (mem : JobStore) (jobId : String) (outcome : WorkOutcome)
    (t1 t2 : ℕ) : JobStore :=
  let mem1 := updateJob mem jobId { status := some .running, error := none, result := none } t1
  match outcome with
  | .done r =>
      updateJob mem1 jobId { status := some .succeeded, error := none, result := some r } t2
  | .thrown m =>
      updateJob mem1 jobId { status := some .failed, error := some m, result := none } t2

/-- C10: a job created by `/upload` starts `queued`; `processJob` first
marks it `running` and terminates in exactly one of two states — `succeeded`
with the result recorded, or `failed` with the error message recorded —
preserving identity fields; and `updateJob` changes nothing outside the
patched fields plus `updatedAt`, and nothing at other keys. -/
theorem job_lifecycle (mem : JobStore) (jobId kind filePath params : String)
    (t t1 t2 : ℕ) (j : JobDoc) (outcome : WorkOutcome)
    (hmem : mem jobId = some j) :
    (uploadInsert mem jobId kind filePath params t jobId =
      some { jobId := jobId, kind := kind, status := .queued, filePath := filePath,
             params := params, createdAt := t, updatedAt := t,
             error := none, result := none }) ∧
    (updateJob mem jobId { status := some .running, error := none, result := none } t1 jobId =
      some { j with status := .running, updatedAt := t1 }) ∧
    (∀ j', processJob mem jobId outcome t1 t2 jobId = some j' →
      ((∃ r, outcome = .done r ∧ j'.status = .succeeded ∧ j'.result = some r) ∨
       (∃ m, outcome = .thrown m ∧ j'.status = .failed ∧ j'.error = some m)) ∧
      (j'.status = .succeeded ∨ j'.status = .failed) ∧
      j'.jobId = j.jobId ∧ j'.kind = j.kind ∧ j'.filePath = j.filePath ∧
      j'.params = j.params ∧ j'.createdAt = j.createdAt) ∧
    (∀ (p : JobPatch) (now : ℕ) (k : String),
      (k ≠ jobId → updateJob mem jobId p now k = mem k) ∧
      (∀ j', updateJob mem jobId p now k = some j' → k = jobId →
        j'.jobId = j.jobId ∧ j'.kind = j.kind ∧ j'.filePath = j.filePath ∧
        j'.params = j.params ∧ j'.createdAt = j.createdAt ∧ j'.updatedAt = now ∧
        (p.status = none → j'.status = j.status) ∧
        (p.error = none → j'.error = j.error) ∧
        (p.result = none → j'.result = j.result))) := by
  refine ⟨by simp [uploadInsert], ?_, ?_, ?_⟩
  · simp [updateJob, hmem, applyPatch]
  · intro j' hj'
    cases outcome with
    | done r =>
        simp [processJob, updateJob, hmem] at hj'
        subst hj'
        exact ⟨Or.inl ⟨r, rfl, by simp [applyPatch], by simp [applyPatch]⟩,
          Or.inl (by simp [applyPatch]), by simp [applyPatch], by simp [applyPatch],
          by simp [applyPatch], by simp [applyPatch], by simp [applyPatch]⟩
    | thrown m =>
        simp [processJob, updateJob, hmem] at hj'
        subst hj'
        exact ⟨Or.inr ⟨m, rfl, by simp [applyPatch], by simp [applyPatch]⟩,
          Or.inr (by simp [applyPatch]), by simp [applyPatch], by simp [applyPatch],
          by simp [applyPatch], by simp [applyPatch], by simp [applyPatch]⟩
  · intro p now k
    constructor
    · intro hk
      simp [updateJob, hk]
    · intro j' hj' hk
      subst hk
      simp [updateJob, hmem] at hj'
      subst hj'
      refine ⟨by simp [applyPatch], by simp [applyPatch], by simp [applyPatch],
        by simp [applyPatch], by simp [applyPatch], by simp [applyPatch], ?_, ?_, ?_⟩
      · intro hp
        simp [applyPatch, hp]
      · intro hp
        simp [applyPatch, hp]
      · intro hp
        simp [applyPatch, hp]

/-- Witness for C10 on a concrete one-job store. -/
theorem job_lifecycle_witness :
    (uploadInsert (fun _ => none) "a" "stats" "f.csv" "p1" 0) "a" =
      some { jobId := "a", kind := "stats", status := .queued, filePath := "f.csv",
             params := "p1", createdAt := 0, updatedAt := 0,
             error := none, result := none } ∧
    ((uploadInsert (fun _ => none) "a" "stats" "f.csv" "p1" 0 "a" =
        some { jobId := "a", kind := "stats", status := .queued, filePath := "f.csv",
               params := "p1", createdAt := 0, updatedAt := 0,
               error := none, result := none }) ∧
     (updateJob (uploadInsert (fun _ => none) "a" "stats" "f.csv" "p1" 0) "a"
        { status := some .running, error := none, result := none } 1 "a" =
       some { jobId := "a", kind := "stats", status := .running, filePath := "f.csv",
              params := "p1", createdAt := 0, updatedAt := 1,
              error := none, result := none }) ∧
     (∀ j', processJob (uploadInsert (fun _ => none) "a" "stats" "f.csv" "p1" 0) "a"
          (.done "res1") 1 2 "a" = some j' →
        ((∃ r, (WorkOutcome.done "res1") = .done r ∧
            j'.status = .succeeded ∧ j'.result = some r) ∨
         (∃ m, (WorkOutcome.done "res1") = .thrown m ∧
            j'.status = .failed ∧ j'.error = some m)) ∧
        (j'.status = .succeeded ∨ j'.status = .failed) ∧
        j'.jobId = "a" ∧ j'.kind = "stats" ∧ j'.filePath = "f.csv" ∧
        j'.params = "p1" ∧ j'.createdAt = 0)) := by
  have hmem : (uploadInsert (fun _ => none) "a" "stats" "f.csv" "p1" 0) "a" =
      some { jobId := "a", kind := "stats", status := .queued, filePath := "f.csv",
             params := "p1", createdAt := 0, updatedAt := 0,
             error := none, result := none } := by
    simp [uploadInsert]
  have h := job_lifecycle (uploadInsert (fun _ => none) "a" "stats" "f.csv" "p1" 0)
    "a" "stats" "f.csv" "p1" 0 1 2 _ (.done "res1") hmem
  exact ⟨hmem, h.1, h.2.1, fun j' hj' => (h.2.2.1 j' hj')⟩

end StatsApp
